import Mathlib

/-!
Verification of the `rusty-sha256` library (`src/lib.rs`).

The Rust source is shallowly embedded below.  Machine integers (`u32`, `u64`,
`usize`) are modelled as `Nat` with explicit `% 2 ^ 32` (resp. `% 2 ^ 64`)
at every point where the source performs wrapping arithmetic or a truncating
cast.  Byte vectors (`Vec<u8>`) are `List Nat` whose elements are below 256,
`[u32; 16]` blocks are `List Nat` of length 16, and the per-block loops of
`SHA256::hash` become folds.
-/

set_option maxRecDepth 4000

namespace SHA256

/-- The 64 round constants `SHA256::K` from `src/lib.rs`, written here in
decimal (the source lists them in hexadecimal, 0x428a2f98, 0x71374491, ...). -/
def K : List Nat := [
  1116352408, 1899447441, 3049323471, 3921009573, 961987163, 1508970993,
  2453635748, 2870763221, 3624381080, 310598401, 607225278, 1426881987,
  1925078388, 2162078206, 2614888103, 3248222580, 3835390401, 4022224774,
  264347078, 604807628, 770255983, 1249150122, 1555081692, 1996064986,
  2554220882, 2821834349, 2952996808, 3210313671, 3336571891, 3584528711,
  113926993, 338241895, 666307205, 773529912, 1294757372, 1396182291,
  1695183700, 1986661051, 2177026350, 2456956037, 2730485921, 2820302411,
  3259730800, 3345764771, 3516065817, 3600352804, 4094571909, 275423344,
  430227734, 506948616, 659060556, 883997877, 958139571, 1322822218,
  1537002063, 1747873779, 1955562222, 2024104815, 2227730452, 2361852424,
  2428436474, 2756734187, 3204031479, 3329325298]

/-- The 8 initial state words `SHA256::H` from `src/lib.rs`, written here in
decimal (the source lists them in hexadecimal, 0x6a09e667, ...). -/
def H : List Nat := [
  1779033703, 3144134277, 1013904242, 2773480762, 1359893119, 2600822924,
  528734635, 1541459225]

/-- `u32::rotate_right` on a 32-bit word (`x < 2 ^ 32`). -/
def rotr (x n : Nat) : Nat := ((x >>> n) ||| (x <<< (32 - n))) % 2 ^ 32

/-- `SHA256::ch`; Rust `!x` on `u32` is modelled as `x ^^^ 0xffffffff`. -/
def ch (x y z : Nat) : Nat := (x &&& y) ^^^ ((x ^^^ 0xffffffff) &&& z)

/-- `SHA256::maj`. -/
def maj (x y z : Nat) : Nat := (x &&& y) ^^^ (x &&& z) ^^^ (y &&& z)

/-- `SHA256::SIGMA0`. -/
def SIGMA0 (x : Nat) : Nat := rotr x 2 ^^^ rotr x 13 ^^^ rotr x 22

/-- `SHA256::SIGMA1`. -/
def SIGMA1 (x : Nat) : Nat := rotr x 6 ^^^ rotr x 11 ^^^ rotr x 25

/-- `SHA256::sigma0`. -/
def sigma0 (x : Nat) : Nat := rotr x 7 ^^^ rotr x 18 ^^^ (x >>> 3)

/-- `SHA256::sigma1`. -/
def sigma1 (x : Nat) : Nat := rotr x 17 ^^^ rotr x 19 ^^^ (x >>> 10)

/-- First schedule loop of `SHA256::hash`: `for t in 0..16 { w[t] = block[t] }`
starting from `let mut w = [0; 64]`. -/
def schedInit (block : List Nat) : List Nat :=
  (List.range 16).foldl (fun w t => w.set t (block.getD t 0)) (List.replicate 64 0)

/-- Second schedule loop of `SHA256::hash`:
`for t in 16..64 { w[t] = sigma1(w[t-2]).wrapping_add(w[t-7]).wrapping_add(sigma0(w[t-15])).wrapping_add(w[t-16]) }`. -/
def scheduleArr (block : List Nat) : List Nat :=
  (List.range' 16 48).foldl
    (fun w t =>
      w.set t
        ((((sigma1 (w.getD (t - 2) 0) + w.getD (t - 7) 0) % 2 ^ 32
            + sigma0 (w.getD (t - 15) 0)) % 2 ^ 32
          + w.getD (t - 16) 0) % 2 ^ 32))
    (schedInit block)

/-- The eight working variables `a..h` of `SHA256::hash`. -/
structure Vars where
  a : Nat
  b : Nat
  c : Nat
  d : Nat
  e : Nat
  f : Nat
  g : Nat
  h : Nat

/-- One iteration of the round loop `for t in 0..64` of `SHA256::hash`:
computes `t1`, `t2` (with Rust's nested `wrapping_add`) and rotates the
working variables. -/
def roundStep (w : List Nat) (v : Vars) (t : Nat) : Vars :=
  let t1 := ((((v.h + SIGMA1 v.e) % 2 ^ 32 + ch v.e v.f v.g) % 2 ^ 32
      + K.getD t 0) % 2 ^ 32 + w.getD t 0) % 2 ^ 32
  let t2 := (SIGMA0 v.a + maj v.a v.b v.c) % 2 ^ 32
  ⟨(t1 + t2) % 2 ^ 32, v.a, v.b, v.c, (v.d + t1) % 2 ^ 32, v.e, v.f, v.g⟩

/-- The body of the per-block loop of `SHA256::hash`: build the schedule,
run the 64 rounds from the current state, fold the working variables back. -/
def compress (state block : List Nat) : List Nat :=
  let w := scheduleArr block
  let v := (List.range 64).foldl (roundStep w)
    ⟨state.getD 0 0, state.getD 1 0, state.getD 2 0, state.getD 3 0,
     state.getD 4 0, state.getD 5 0, state.getD 6 0, state.getD 7 0⟩
  [(v.a + state.getD 0 0) % 2 ^ 32, (v.b + state.getD 1 0) % 2 ^ 32,
   (v.c + state.getD 2 0) % 2 ^ 32, (v.d + state.getD 3 0) % 2 ^ 32,
   (v.e + state.getD 4 0) % 2 ^ 32, (v.f + state.getD 5 0) % 2 ^ 32,
   (v.g + state.getD 6 0) % 2 ^ 32, (v.h + state.getD 7 0) % 2 ^ 32]

/-- `SHA256::hash`: fold the per-block compression over the blocks,
starting from the constants `H`. -/
def hash (blocks : List (List Nat)) : List Nat := blocks.foldl compress H

/-- Loop state of `SHA256::into_512bit_blocks`: the accumulated `blocks`
vector, the current word index `idx`, the current `shift`, and the current
partially-filled `block`. -/
structure ParseState where
  blocks : List (List Nat)
  idx : Nat
  shift : Nat
  block : List Nat

/-- One iteration of the byte loop of `SHA256::into_512bit_blocks`. -/
def parseStep (s : ParseState) (byte : Nat) : ParseState :=
  let shift := s.shift - 8
  let block := s.block.set s.idx (s.block.getD s.idx 0 ||| (byte <<< shift))
  let p := if shift = 0 then (s.idx + 1, 32) else (s.idx, shift)
  if p.1 = 16 then ⟨s.blocks ++ [block], 0, p.2, List.replicate 16 0⟩
  else ⟨s.blocks, p.1, p.2, block⟩

/-- `SHA256::into_512bit_blocks`: run the byte loop from the initial state
and return the accumulated blocks (a trailing partial block is never pushed). -/
def into_512bit_blocks (padded : List Nat) : List (List Nat) :=
  (padded.foldl parseStep ⟨[], 0, 32, List.replicate 16 0⟩).blocks

/-- `SHA256::add_padding`.  `len_bits` models `(len * 8) as u64` (the
multiplication is on `usize`, so the value is reduced mod `2 ^ 64`), and each
`as u8` cast is `% 256`.  Only `size[4..8]` are assigned in the source. -/
def add_padding (message : List Nat) : List Nat :=
  let len := message.length
  let tmp : List Nat := (List.replicate 64 0x00).set 0 0x80
  let padded :=
    if len % 64 < 64 - 8 then
      message ++ tmp.take (64 - 8 - len % 64)
    else
      message ++ tmp.take (64 + 64 - 8 - len % 64)
  let len_bits := (len * 8) % 2 ^ 64
  let size := ((((List.replicate 8 0x00).set 4 ((len_bits >>> 24) % 256)).set 5
    ((len_bits >>> 16) % 256)).set 6 ((len_bits >>> 8) % 256)).set 7 (len_bits % 256)
  padded ++ size

/-- Rust's `format!("\x7b:x\x7d", n)`: minimal-width lowercase hexadecimal,
no zero padding (`Nat.toDigits 16` produces exactly this form). -/
def formatHex (n : Nat) : String := String.mk (Nat.toDigits 16 n)

/-- `SHA256::exec` on the message's UTF-8 bytes: pad, parse, hash, then
join the per-word hex renderings. -/
def exec (message : List Nat) : String :=
  let padded := add_padding message
  let blocks := into_512bit_blocks padded
  let hashed := hash blocks
  String.join (hashed.map formatHex)

end SHA256

/-!
Spec-side definitions, written from the words of the natural-language
specification (§4.3 message schedule, §4.4 compression, §4.5 orchestration),
to be compared with the source embedding above.
-/

namespace Spec

/-- Spec §4.3: `rotr(x,n)` is a circular right rotation of a 32-bit word. -/
def rotr (x n : Nat) : Nat := ((x >>> n) ||| (x <<< (32 - n))) % 2 ^ 32

/-- Spec §4.3: `sigma0(x) = rotr(x,7) xor rotr(x,18) xor (x >> 3)`. -/
def s0 (x : Nat) : Nat := rotr x 7 ^^^ rotr x 18 ^^^ (x >>> 3)

/-- Spec §4.3: `sigma1(x) = rotr(x,17) xor rotr(x,19) xor (x >> 10)`. -/
def s1 (x : Nat) : Nat := rotr x 17 ^^^ rotr x 19 ^^^ (x >>> 10)

/-- Spec §4.4: `SIGMA0(x) = rotr(x,2) xor rotr(x,13) xor rotr(x,22)`. -/
def S0 (x : Nat) : Nat := rotr x 2 ^^^ rotr x 13 ^^^ rotr x 22

/-- Spec §4.4: `SIGMA1(x) = rotr(x,6) xor rotr(x,11) xor rotr(x,25)`. -/
def S1 (x : Nat) : Nat := rotr x 6 ^^^ rotr x 11 ^^^ rotr x 25

/-- Spec §4.4: `Ch(x,y,z) = (x AND y) XOR (NOT x AND z)` (NOT on 32 bits). -/
def chf (x y z : Nat) : Nat := (x &&& y) ^^^ ((x ^^^ 0xffffffff) &&& z)

/-- Spec §4.4: `Maj(x,y,z) = (x AND y) XOR (x AND z) XOR (y AND z)`. -/
def majf (x y z : Nat) : Nat := (x &&& y) ^^^ (x &&& z) ^^^ (y &&& z)

/-- Spec §4.3: the message schedule.  Indices 0-15 copy the block's words;
indices 16-63 follow `W[t] = sigma1(W[t-2]) + W[t-7] + sigma0(W[t-15]) + W[t-16]`
(mod `2 ^ 32`). -/
def W (block : List Nat) (t : Nat) : Nat :=
  if h : t < 16 then block.getD t 0
  else
    (s1 (W block (t - 2)) + W block (t - 7) + s0 (W block (t - 15))
      + W block (t - 16)) % 2 ^ 32
termination_by t
decreasing_by all_goals omega

/-- Spec §4.4, one round `t`:
`T1 = h + SIGMA1(e) + Ch(e,f,g) + K[t] + W[t]` (mod `2 ^ 32`),
`T2 = SIGMA0(a) + Maj(a,b,c)` (mod `2 ^ 32`), then the rotation
`h<-g, g<-f, f<-e, e<-d+T1, d<-c, c<-b, b<-a, a<-T1+T2`. -/
def round (Wf : Nat → Nat) (v : SHA256.Vars) (t : Nat) : SHA256.Vars :=
  let T1 := (v.h + S1 v.e + chf v.e v.f v.g + SHA256.K.getD t 0 + Wf t) % 2 ^ 32
  let T2 := (S0 v.a + majf v.a v.b v.c) % 2 ^ 32
  ⟨(T1 + T2) % 2 ^ 32, v.a, v.b, v.c, (v.d + T1) % 2 ^ 32, v.e, v.f, v.g⟩

/-- Spec §4.4: initialize `a..h` from the state, run the 64 rounds in strict
ascending order, then fold back `state'[i] = state[i] + vars[i]` (mod `2 ^ 32`)
elementwise. -/
def compress (state block : List Nat) : List Nat :=
  let v := (List.range 64).foldl (round (W block))
    ⟨state.getD 0 0, state.getD 1 0, state.getD 2 0, state.getD 3 0,
     state.getD 4 0, state.getD 5 0, state.getD 6 0, state.getD 7 0⟩
  [(state.getD 0 0 + v.a) % 2 ^ 32, (state.getD 1 0 + v.b) % 2 ^ 32,
   (state.getD 2 0 + v.c) % 2 ^ 32, (state.getD 3 0 + v.d) % 2 ^ 32,
   (state.getD 4 0 + v.e) % 2 ^ 32, (state.getD 5 0 + v.f) % 2 ^ 32,
   (state.getD 6 0 + v.g) % 2 ^ 32, (state.getD 7 0 + v.h) % 2 ^ 32]

/-- Spec §4.5: fold the compression over the block sequence, starting from
the fixed initial state constants `H`. -/
def hash (blocks : List (List Nat)) : List Nat := blocks.foldl compress SHA256.H

end Spec

/-!
Vocabulary for the padding / parsing claims: big-endian byte serialization
of words and byte sequences, and a direct characterization of the parser.
-/

/-- The four big-endian bytes of a 32-bit word. -/
def wordBytesBE (w : Nat) : List Nat :=
  [(w >>> 24) % 256, (w >>> 16) % 256, (w >>> 8) % 256, w % 256]

/-- Serialize a 16-word block back to its 64 big-endian bytes. -/
def blockBytesBE (blk : List Nat) : List Nat := (blk.map wordBytesBE).flatten

/-- Interpret a byte sequence as a big-endian integer. -/
def bytesBE (l : List Nat) : Nat := l.foldl (fun acc b => acc * 256 + b) 0

/-- The 32-bit word packing 4 bytes big-endian, as accumulated by the
`|=`/shift loop of `SHA256::into_512bit_blocks`. -/
def word4 (b0 b1 b2 b3 : Nat) : Nat := b0 <<< 24 ||| b1 <<< 16 ||| b2 <<< 8 ||| b3

/-- Pack a byte stream into big-endian 32-bit words, 4 bytes at a time;
a trailing group of fewer than 4 bytes is dropped. -/
def packWords : List Nat → List Nat
  | [] => []
  | [_] => []
  | [_, _] => []
  | [_, _, _] => []
  | b0 :: b1 :: b2 :: b3 :: rest => word4 b0 b1 b2 b3 :: packWords rest

/-- Word-level characterization of the parser loop: place each word at the
next index of the current block, pushing the block when index 16 is reached;
trailing words of an incomplete block are dropped. -/
def fillFrom (idx : Nat) (block : List Nat) : List Nat → List (List Nat)
  | [] => []
  | w :: ws =>
    let b := block.set idx (block.getD idx 0 ||| w)
    if idx + 1 = 16 then b :: fillFrom 0 (List.replicate 16 0) ws
    else fillFrom (idx + 1) b ws

/-!  Small `List` helpers used throughout. -/

theorem getD_set_self (l : List Nat) (i v : Nat) (h : i < l.length) :
    (l.set i v).getD i 0 = v := by
  induction l generalizing i with
  | nil => simp at h
  | cons a l ih =>
    cases i with
    | zero => rfl
    | succ i => exact ih i (by simpa using h)

theorem getD_set_ne (l : List Nat) (i j v : Nat) (h : i ≠ j) :
    (l.set i v).getD j 0 = l.getD j 0 := by
  induction l generalizing i j with
  | nil => simp
  | cons a l ih =>
    cases i with
    | zero => cases j with
      | zero => exact absurd rfl h
      | succ j => rfl
    | succ i =>
      cases j with
      | zero => rfl
      | succ j => exact ih i j (by omega)

/-!  Length and suffix characterization of `add_padding`. -/

theorem add_padding_length (m : List Nat) :
    (SHA256.add_padding m).length =
      m.length + (if m.length % 64 < 56 then 56 - m.length % 64 else 120 - m.length % 64) + 8 := by
  have h64 : m.length % 64 < 64 := Nat.mod_lt _ (by omega)
  unfold SHA256.add_padding
  by_cases h : m.length % 64 < 64 - 8 <;>
    simp [h, List.length_take] <;> omega

theorem add_padding_suffix (m : List Nat) :
    (SHA256.add_padding m).drop ((SHA256.add_padding m).length - 8) =
      [0, 0, 0, 0,
       ((m.length * 8 % 2 ^ 64) >>> 24) % 256, ((m.length * 8 % 2 ^ 64) >>> 16) % 256,
       ((m.length * 8 % 2 ^ 64) >>> 8) % 256, m.length * 8 % 2 ^ 64 % 256] := by
  have hsize : ∀ x4 x5 x6 x7 : Nat,
      ((((List.replicate 8 (0 : Nat)).set 4 x4).set 5 x5).set 6 x6).set 7 x7
        = [0, 0, 0, 0, x4, x5, x6, x7] := fun _ _ _ _ => rfl
  simp only [SHA256.add_padding]
  rw [hsize]
  set pd := if m.length % 64 < 64 - 8 then
      m ++ ((List.replicate 64 (0 : Nat)).set 0 0x80).take (64 - 8 - m.length % 64)
    else
      m ++ ((List.replicate 64 (0 : Nat)).set 0 0x80).take (64 + 64 - 8 - m.length % 64)
    with hpd
  have hlen : (pd ++ [0, 0, 0, 0,
       ((m.length * 8 % 2 ^ 64) >>> 24) % 256, ((m.length * 8 % 2 ^ 64) >>> 16) % 256,
       ((m.length * 8 % 2 ^ 64) >>> 8) % 256, m.length * 8 % 2 ^ 64 % 256]).length
      = pd.length + 8 := by simp
  rw [hlen, Nat.add_sub_cancel, List.drop_left]

/-- C4: for every message `m`, the length of `add_padding m` is a multiple of
64 bytes and is at least `m.length + 9` bytes. -/
theorem padding_length_property (m : List Nat) :
    (SHA256.add_padding m).length % 64 = 0 ∧ m.length + 9 ≤ (SHA256.add_padding m).length := by
  rw [add_padding_length]
  have h64 : m.length % 64 < 64 := Nat.mod_lt _ (by omega)
  constructor
  · split <;> omega
  · split <;> omega

/-- C7: a 55-byte message pads to exactly one 64-byte block, and a 56-byte
message pads to exactly two blocks (128 bytes). -/
theorem padding_55_one_block_56_two (m1 m2 : List Nat)
    (h1 : m1.length = 55) (h2 : m2.length = 56) :
    (SHA256.add_padding m1).length = 64 ∧ (SHA256.add_padding m2).length = 128 := by
  rw [add_padding_length, add_padding_length, h1, h2]
  norm_num

/-- Witness for C7 at two concrete messages. -/
theorem padding_55_one_block_56_two_witness :
    (List.replicate 55 (0 : Nat)).length = 55 ∧ (List.replicate 56 (0 : Nat)).length = 56 ∧
    (SHA256.add_padding (List.replicate 55 0)).length = 64 ∧
    (SHA256.add_padding (List.replicate 56 0)).length = 128 :=
  ⟨by simp, by simp,
   padding_55_one_block_56_two (List.replicate 55 0) (List.replicate 56 0) (by simp) (by simp)⟩

/-- C10: the first four bytes of the 8-byte length field appended by
`add_padding` are always `0x00`, and the field (read big-endian) encodes
`m.length * 8` modulo `2 ^ 32`. -/
theorem length_field_is_mod_2_32 (m : List Nat) :
    ((SHA256.add_padding m).drop ((SHA256.add_padding m).length - 8)).take 4 = [0, 0, 0, 0] ∧
    bytesBE ((SHA256.add_padding m).drop ((SHA256.add_padding m).length - 8))
      = m.length * 8 % 2 ^ 32 := by
  rw [add_padding_suffix]
  refine ⟨rfl, ?_⟩
  simp only [bytesBE, List.foldl]
  rw [Nat.shiftRight_eq_div_pow, Nat.shiftRight_eq_div_pow, Nat.shiftRight_eq_div_pow]
  omega

/-- C5 fails on the code: for the `2 ^ 29`-byte message (bit-length `2 ^ 32`),
the 8-byte length field of `add_padding` reads 0 big-endian, not
`m.length * 8 = 2 ^ 32`, because the source only assigns `size[4..8]`. -/
theorem length_field_truncated_at_2_29 :
    bytesBE ((SHA256.add_padding (List.replicate (2 ^ 29) 0)).drop
        ((SHA256.add_padding (List.replicate (2 ^ 29) 0)).length - 8)) = 0 ∧
    (List.replicate (2 ^ 29) (0 : Nat)).length * 8 = 2 ^ 32 := by
  rw [add_padding_suffix]
  simp only [List.length_replicate]
  constructor
  · decide
  · decide

/-- C8 fails on the code: `add_padding` performs no size check at all.  At the
`2 ^ 61`-byte boundary message it still returns a padded buffer (of length
`2 ^ 61 + 64`), whose length field has silently wrapped to all-zero bytes
(`2 ^ 61 * 8 = 2 ^ 64 ≡ 0`); no `InputTooLarge` condition exists. -/
theorem no_input_too_large_check :
    (SHA256.add_padding (List.replicate (2 ^ 61) 0)).length = 2 ^ 61 + 64 ∧
    (SHA256.add_padding (List.replicate (2 ^ 61) 0)).drop
        ((SHA256.add_padding (List.replicate (2 ^ 61) 0)).length - 8)
      = [0, 0, 0, 0, 0, 0, 0, 0] := by
  constructor
  · rw [add_padding_length]
    simp only [List.length_replicate]
    norm_num
  · rw [add_padding_suffix]
    simp only [List.length_replicate]
    decide

/-- C9 fails on the code: on an input whose length is not a multiple of 64,
`into_512bit_blocks` does not fail; it silently returns only the complete
blocks, dropping the trailing bytes (here: the single byte `0x01`). -/
theorem parse_silently_drops_trailing_bytes :
    ([(1 : Nat)].length % 64 ≠ 0) ∧ SHA256.into_512bit_blocks [1] = [] := by
  constructor
  · decide
  · rfl

/-- C3: `exec` on the empty message yields the canonical empty-string digest. -/
theorem exec_empty_message :
    SHA256.exec [] = "e3b0c44298fc1c149afbf4c8996fb92427ae41e4649b934ca495991b7852b855" := by
  decide

/-- C2 fails on the code: `exec` formats each word with Rust's non-padding
`{:x}`, so for the one-byte message `"b"` (`0x62`), whose digest's second word
is `0x0039594a`, the output collapses to 62 characters instead of 64. -/
theorem exec_not_zero_padded :
    SHA256.exec [0x62] = "3e23e81639594a33894f6564e1b1348bbd7a0088d42c4acb73eeaed59c009d" ∧
    (SHA256.exec [0x62]).length = 62 := by
  constructor
  · decide
  · decide

/-!  The message schedule array of the source equals the spec recurrence. -/

theorem length_foldl_set (ts : List Nat) (g : List Nat → Nat → Nat) (w : List Nat) :
    (ts.foldl (fun w t => w.set t (g w t)) w).length = w.length := by
  induction ts generalizing w with
  | nil => rfl
  | cons a ts ih => simp [List.foldl_cons, ih]

theorem getD_replicate_zero (n t : Nat) : (List.replicate n (0 : Nat)).getD t 0 = 0 := by
  simp only [List.getD_eq_getElem?_getD, List.getElem?_replicate]
  split <;> rfl

theorem schedInit_charact (block : List Nat) (n : Nat) (hn : n ≤ 16) (t : Nat) :
    (((List.range n).foldl (fun w t => w.set t (block.getD t 0))
        (List.replicate 64 0)).getD t 0)
      = if t < n then block.getD t 0 else 0 := by
  induction n with
  | zero =>
    simp only [List.range_zero, List.foldl_nil]
    rw [getD_replicate_zero, if_neg (by omega)]
  | succ n ih =>
    rw [List.range_succ, List.foldl_append]
    simp only [List.foldl_cons, List.foldl_nil]
    have hlen : ((List.range n).foldl (fun w t => w.set t (block.getD t 0))
        (List.replicate 64 0)).length = 64 := by
      rw [length_foldl_set]; simp
    by_cases ht : t = n
    · subst ht
      rw [getD_set_self _ _ _ (by omega)]
      simp
    · rw [getD_set_ne _ _ _ _ (fun he => ht he.symm), ih (by omega)]
      by_cases h2 : t < n
      · rw [if_pos h2, if_pos (by omega)]
      · rw [if_neg h2, if_neg (by omega)]

theorem schedInit_getD (block : List Nat) (t : Nat) :
    (SHA256.schedInit block).getD t 0 = if t < 16 then block.getD t 0 else 0 :=
  schedInit_charact block 16 (by omega) t

theorem schedInit_length (block : List Nat) : (SHA256.schedInit block).length = 64 := by
  unfold SHA256.schedInit
  rw [length_foldl_set]; simp

theorem W_lt_16 (block : List Nat) (t : Nat) (h : t < 16) :
    Spec.W block t = block.getD t 0 := by
  rw [Spec.W]; simp [h]

theorem W_ge_16 (block : List Nat) (t : Nat) (h : 16 ≤ t) :
    Spec.W block t =
      (Spec.s1 (Spec.W block (t - 2)) + Spec.W block (t - 7)
        + Spec.s0 (Spec.W block (t - 15)) + Spec.W block (t - 16)) % 2 ^ 32 := by
  rw [Spec.W]; simp [Nat.not_lt.mpr h]

theorem s0_eq_sigma0 (x : Nat) : Spec.s0 x = SHA256.sigma0 x := rfl

theorem s1_eq_sigma1 (x : Nat) : Spec.s1 x = SHA256.sigma1 x := rfl

theorem scheduleArr_charact (block : List Nat) (k : Nat) (hk : k ≤ 48) : ∀ t,
    (((List.range' 16 k).foldl
        (fun w t =>
          w.set t
            ((((SHA256.sigma1 (w.getD (t - 2) 0) + w.getD (t - 7) 0) % 2 ^ 32
                + SHA256.sigma0 (w.getD (t - 15) 0)) % 2 ^ 32
              + w.getD (t - 16) 0) % 2 ^ 32))
        (SHA256.schedInit block)).getD t 0)
      = if t < 16 + k then Spec.W block t else 0 := by
  induction k with
  | zero =>
    intro t
    rw [List.range', List.foldl_nil, schedInit_getD]
    by_cases h : t < 16
    · simp [h, W_lt_16 block t h]
    · simp [h]
  | succ k ih =>
    intro t
    have hk' : k ≤ 48 := by omega
    rw [List.range'_concat, List.foldl_append]
    simp only [List.foldl_cons, List.foldl_nil]
    have hlen : (((List.range' 16 k).foldl
        (fun w t =>
          w.set t
            ((((SHA256.sigma1 (w.getD (t - 2) 0) + w.getD (t - 7) 0) % 2 ^ 32
                + SHA256.sigma0 (w.getD (t - 15) 0)) % 2 ^ 32
              + w.getD (t - 16) 0) % 2 ^ 32))
        (SHA256.schedInit block)).length) = 64 := by
      rw [length_foldl_set, schedInit_length]
    have h16k : 16 + 1 * k = 16 + k := by omega
    rw [h16k]
    by_cases ht : t = 16 + k
    · subst ht
      rw [getD_set_self _ _ _ (by omega)]
      have e2 := ih hk' (16 + k - 2)
      have e7 := ih hk' (16 + k - 7)
      have e15 := ih hk' (16 + k - 15)
      have e16 := ih hk' (16 + k - 16)
      rw [if_pos (show 16 + k - 2 < 16 + k by omega)] at e2
      rw [if_pos (show 16 + k - 7 < 16 + k by omega)] at e7
      rw [if_pos (show 16 + k - 15 < 16 + k by omega)] at e15
      rw [if_pos (show 16 + k - 16 < 16 + k by omega)] at e16
      rw [e2, e7, e15, e16, if_pos (show 16 + k < 16 + (k + 1) by omega)]
      rw [W_ge_16 block (16 + k) (by omega), s0_eq_sigma0, s1_eq_sigma1]
      omega
    · rw [getD_set_ne _ _ _ _ (fun he => ht he.symm), ih hk' t]
      by_cases h2 : t < 16 + k
      · rw [if_pos h2, if_pos (by omega)]
      · rw [if_neg h2, if_neg (by omega)]

theorem scheduleArr_getD (block : List Nat) (t : Nat) (h : t < 64) :
    (SHA256.scheduleArr block).getD t 0 = Spec.W block t := by
  unfold SHA256.scheduleArr
  rw [scheduleArr_charact block 48 (by omega) t, if_pos (by omega)]

/-!  Round-by-round and per-block equality of source and spec compression. -/

theorem foldl_congr_mem {α β : Type} (l : List α) (f g : β → α → β) (s : β)
    (h : ∀ s x, x ∈ l → f s x = g s x) : l.foldl f s = l.foldl g s := by
  induction l generalizing s with
  | nil => rfl
  | cons a l ih =>
    rw [List.foldl_cons, List.foldl_cons, h s a (by simp)]
    exact ih _ (fun s x hx => h s x (List.mem_cons_of_mem _ hx))

theorem S0_eq_SIGMA0 (x : Nat) : Spec.S0 x = SHA256.SIGMA0 x := rfl

theorem S1_eq_SIGMA1 (x : Nat) : Spec.S1 x = SHA256.SIGMA1 x := rfl

theorem chf_eq_ch (x y z : Nat) : Spec.chf x y z = SHA256.ch x y z := rfl

theorem majf_eq_maj (x y z : Nat) : Spec.majf x y z = SHA256.maj x y z := rfl

theorem roundStep_eq_round (block : List Nat) (v : SHA256.Vars) (t : Nat) (h : t < 64) :
    SHA256.roundStep (SHA256.scheduleArr block) v t = Spec.round (Spec.W block) v t := by
  simp only [SHA256.roundStep, Spec.round, S1_eq_SIGMA1, S0_eq_SIGMA0, chf_eq_ch, majf_eq_maj]
  rw [scheduleArr_getD block t h]
  congr 1 <;> omega

theorem compress_eq (state block : List Nat) :
    SHA256.compress state block = Spec.compress state block := by
  simp only [SHA256.compress, Spec.compress]
  rw [foldl_congr_mem (List.range 64) (SHA256.roundStep (SHA256.scheduleArr block))
    (Spec.round (Spec.W block)) _
    (fun s x hx => roundStep_eq_round block s x (List.mem_range.mp hx))]
  simp [Nat.add_comm]

/-- C1: `SHA256::hash` refines spec §§4.3-4.5: starting from the constants
`H` it folds, over the blocks in order, the compression that expands the
schedule by the `W[t]` recurrence (mod `2 ^ 32`), runs the 64 `T1`/`T2` rounds
with the rotation `h<-g, g<-f, f<-e, e<-d+T1, d<-c, c<-b, b<-a, a<-T1+T2`, and
folds back `state'[i] = state[i] + vars[i]` (mod `2 ^ 32`) elementwise. -/
theorem hash_refines_spec (blocks : List (List Nat)) :
    SHA256.hash blocks = Spec.hash blocks := by
  unfold SHA256.hash Spec.hash
  exact foldl_congr_mem blocks SHA256.compress Spec.compress SHA256.H
    (fun s x _ => compress_eq s x)

/-!  Byte/word round-trip arithmetic for the parser claims. -/

theorem word4_eq (b0 b1 b2 b3 : Nat)
    (h0 : b0 < 256) (h1 : b1 < 256) (h2 : b2 < 256) (h3 : b3 < 256) :
    word4 b0 b1 b2 b3 = 2 ^ 24 * b0 + 2 ^ 16 * b1 + 2 ^ 8 * b2 + b3 := by
  unfold word4
  rw [Nat.or_assoc, Nat.or_assoc, Nat.shiftLeft_eq, Nat.shiftLeft_eq, Nat.shiftLeft_eq]
  rw [Nat.mul_comm b0 (2 ^ 24), Nat.mul_comm b1 (2 ^ 16), Nat.mul_comm b2 (2 ^ 8)]
  rw [← Nat.mul_add_lt_is_or (show b3 < 2 ^ 8 by omega) b2]
  rw [← Nat.mul_add_lt_is_or (show 2 ^ 8 * b2 + b3 < 2 ^ 16 by omega) b1]
  rw [← Nat.mul_add_lt_is_or (show 2 ^ 16 * b1 + (2 ^ 8 * b2 + b3) < 2 ^ 24 by omega) b0]
  omega

theorem wordBytesBE_word4 (b0 b1 b2 b3 : Nat)
    (h0 : b0 < 256) (h1 : b1 < 256) (h2 : b2 < 256) (h3 : b3 < 256) :
    wordBytesBE (word4 b0 b1 b2 b3) = [b0, b1, b2, b3] := by
  rw [word4_eq b0 b1 b2 b3 h0 h1 h2 h3]
  simp only [wordBytesBE, Nat.shiftRight_eq_div_pow]
  have e0 : (2 ^ 24 * b0 + 2 ^ 16 * b1 + 2 ^ 8 * b2 + b3) / 2 ^ 24 % 256 = b0 := by omega
  have e1 : (2 ^ 24 * b0 + 2 ^ 16 * b1 + 2 ^ 8 * b2 + b3) / 2 ^ 16 % 256 = b1 := by omega
  have e2 : (2 ^ 24 * b0 + 2 ^ 16 * b1 + 2 ^ 8 * b2 + b3) / 2 ^ 8 % 256 = b2 := by omega
  have e3 : (2 ^ 24 * b0 + 2 ^ 16 * b1 + 2 ^ 8 * b2 + b3) % 256 = b3 := by omega
  rw [e0, e1, e2, e3]

/-!  Stepwise characterization of the `into_512bit_blocks` byte loop. -/

theorem parseStep_mid (blocks : List (List Nat)) (idx : Nat) (block : List Nat)
    (sh : Nat) (h16 : idx ≠ 16) (hsh : sh - 8 ≠ 0) (byte : Nat) :
    SHA256.parseStep ⟨blocks, idx, sh, block⟩ byte
      = ⟨blocks, idx, sh - 8, block.set idx (block.getD idx 0 ||| byte <<< (sh - 8))⟩ := by
  simp [SHA256.parseStep, hsh, h16]

theorem parseStep_last (blocks : List (List Nat)) (idx : Nat) (block : List Nat)
    (byte : Nat) :
    SHA256.parseStep ⟨blocks, idx, 8, block⟩ byte
      = if idx + 1 = 16 then
          ⟨blocks ++ [block.set idx (block.getD idx 0 ||| byte <<< 0)], 0, 32,
            List.replicate 16 0⟩
        else ⟨blocks, idx + 1, 32, block.set idx (block.getD idx 0 ||| byte <<< 0)⟩ := by
  simp only [SHA256.parseStep]
  norm_num

theorem parse4_cont (blocks : List (List Nat)) (idx : Nat) (block : List Nat)
    (hidx : idx + 1 < 16) (hlen : block.length = 16)
    (b0 b1 b2 b3 : Nat) (rest : List Nat) :
    List.foldl SHA256.parseStep ⟨blocks, idx, 32, block⟩ (b0 :: b1 :: b2 :: b3 :: rest)
      = List.foldl SHA256.parseStep
          ⟨blocks, idx + 1, 32, block.set idx (block.getD idx 0 ||| word4 b0 b1 b2 b3)⟩
          rest := by
  have h16 : idx ≠ 16 := by omega
  have hl : idx < block.length := by omega
  rw [List.foldl_cons, parseStep_mid blocks idx block 32 h16 (by norm_num) b0]
  rw [List.foldl_cons, parseStep_mid blocks idx _ (32 - 8) h16 (by norm_num) b1]
  rw [List.foldl_cons, parseStep_mid blocks idx _ (32 - 8 - 8) h16 (by norm_num) b2]
  norm_num
  rw [parseStep_last]
  rw [if_neg (by omega)]
  simp [List.set_set, hl, word4, Nat.or_assoc]

theorem parse4_push (blocks : List (List Nat)) (idx : Nat) (block : List Nat)
    (hidx : idx + 1 = 16) (hlen : block.length = 16)
    (b0 b1 b2 b3 : Nat) (rest : List Nat) :
    List.foldl SHA256.parseStep ⟨blocks, idx, 32, block⟩ (b0 :: b1 :: b2 :: b3 :: rest)
      = List.foldl SHA256.parseStep
          ⟨blocks ++ [block.set idx (block.getD idx 0 ||| word4 b0 b1 b2 b3)], 0, 32,
            List.replicate 16 0⟩
          rest := by
  have h16 : idx ≠ 16 := by omega
  have hl : idx < block.length := by omega
  rw [List.foldl_cons, parseStep_mid blocks idx block 32 h16 (by norm_num) b0]
  rw [List.foldl_cons, parseStep_mid blocks idx _ (32 - 8) h16 (by norm_num) b1]
  rw [List.foldl_cons, parseStep_mid blocks idx _ (32 - 8 - 8) h16 (by norm_num) b2]
  norm_num
  rw [parseStep_last]
  rw [if_pos hidx]
  simp [List.set_set, hl, word4, Nat.or_assoc]

theorem parse_charact (bytes : List Nat) : ∀ (blocks : List (List Nat)) (idx : Nat)
    (block : List Nat), idx < 16 → block.length = 16 →
    (List.foldl SHA256.parseStep ⟨blocks, idx, 32, block⟩ bytes).blocks
      = blocks ++ fillFrom idx block (packWords bytes) := by
  induction bytes using packWords.induct with
  | case1 =>
    intro blocks idx block h1 h2
    simp [packWords, fillFrom]
  | case2 b0 =>
    intro blocks idx block h1 h2
    have h16 : idx ≠ 16 := by omega
    rw [List.foldl_cons, parseStep_mid blocks idx block 32 h16 (by norm_num) b0,
      List.foldl_nil]
    simp [packWords, fillFrom]
  | case3 b0 b1 =>
    intro blocks idx block h1 h2
    have h16 : idx ≠ 16 := by omega
    rw [List.foldl_cons, parseStep_mid blocks idx block 32 h16 (by norm_num) b0]
    rw [List.foldl_cons, parseStep_mid blocks idx _ (32 - 8) h16 (by norm_num) b1,
      List.foldl_nil]
    simp [packWords, fillFrom]
  | case4 b0 b1 b2 =>
    intro blocks idx block h1 h2
    have h16 : idx ≠ 16 := by omega
    rw [List.foldl_cons, parseStep_mid blocks idx block 32 h16 (by norm_num) b0]
    rw [List.foldl_cons, parseStep_mid blocks idx _ (32 - 8) h16 (by norm_num) b1]
    rw [List.foldl_cons, parseStep_mid blocks idx _ (32 - 8 - 8) h16 (by norm_num) b2,
      List.foldl_nil]
    simp [packWords, fillFrom]
  | case5 b0 b1 b2 b3 rest ih =>
    intro blocks idx block h1 h2
    by_cases hp : idx + 1 = 16
    · rw [parse4_push blocks idx block hp h2]
      rw [ih (blocks ++ [block.set idx (block.getD idx 0 ||| word4 b0 b1 b2 b3)]) 0
        (List.replicate 16 0) (by omega) (by simp)]
      simp [packWords, fillFrom, hp]
    · rw [parse4_cont blocks idx block (by omega) h2]
      rw [ih blocks (idx + 1) (block.set idx (block.getD idx 0 ||| word4 b0 b1 b2 b3))
        (by omega) (by simp [h2])]
      simp [packWords, fillFrom, hp]

theorem into_charact (bytes : List Nat) :
    SHA256.into_512bit_blocks bytes = fillFrom 0 (List.replicate 16 0) (packWords bytes) := by
  unfold SHA256.into_512bit_blocks
  rw [parse_charact bytes [] 0 (List.replicate 16 0) (by omega) (by simp)]
  rfl

theorem fillFrom_append (ws rest : List Nat) : ∀ (idx : Nat) (block : List Nat),
    idx < 16 → idx + ws.length = 16 → block.length = 16 →
    (∀ j, idx ≤ j → block.getD j 0 = 0) →
    fillFrom idx block (ws ++ rest)
      = (block.take idx ++ ws) :: fillFrom 0 (List.replicate 16 0) rest := by
  induction ws with
  | nil =>
    intro idx block h1 h2 h3 h4
    simp at h2
    omega
  | cons w ws ih =>
    intro idx block h1 h2 h3 h4
    rw [List.cons_append]
    simp only [fillFrom]
    have hz : block.getD idx 0 = 0 := h4 idx (Nat.le_refl idx)
    rw [hz, Nat.zero_or]
    have hset : block.set idx w = block.take idx ++ w :: block.drop (idx + 1) := by
      rw [List.set_eq_take_append_cons_drop, if_pos (by omega)]
    by_cases hp : idx + 1 = 16
    · rw [if_pos hp]
      have hw : ws = [] := by
        cases ws with
        | nil => rfl
        | cons x xs => simp at h2; omega
      subst hw
      have hdrop : block.drop (idx + 1) = [] := List.drop_eq_nil_of_le (by omega)
      rw [hset, hdrop]
      simp
    · rw [if_neg hp]
      have hlen2 : ws.length + (idx + 1) = 16 := by simp at h2; omega
      rw [ih (idx + 1) (block.set idx w) (by omega) (by omega) (by simp [h3])
        (fun j hj => by
          rw [getD_set_ne block idx j w (by omega)]
          exact h4 j (by omega))]
      have htake : (block.set idx w).take (idx + 1) = block.take idx ++ [w] := by
        rw [hset]
        have hlt : idx + 1 = (block.take idx).length + 1 := by
          simp [List.length_take]
          omega
        rw [hlt, List.take_append, List.take_succ_cons, List.take_zero]
      rw [htake, List.append_assoc, List.singleton_append]

theorem packWords_append (c : List Nat) : ∀ rest : List Nat, c.length % 4 = 0 →
    packWords (c ++ rest) = packWords c ++ packWords rest := by
  induction c using packWords.induct with
  | case1 => intro rest h; simp [packWords]
  | case2 b0 => intro rest h; simp at h
  | case3 b0 b1 => intro rest h; simp at h
  | case4 b0 b1 b2 => intro rest h; simp at h
  | case5 b0 b1 b2 b3 tail ih =>
    intro rest h
    simp only [List.cons_append, packWords, List.append_eq]
    rw [ih rest (by simp at h; omega)]

theorem packWords_length (c : List Nat) : (packWords c).length = c.length / 4 := by
  induction c using packWords.induct with
  | case1 => rfl
  | case2 b0 => simp [packWords]
  | case3 b0 b1 => simp [packWords]
  | case4 b0 b1 b2 => simp [packWords]
  | case5 b0 b1 b2 b3 tail ih =>
    simp only [packWords, List.length_cons, ih]
    omega

theorem blockBytesBE_packWords (c : List Nat) : c.length % 4 = 0 → (∀ b ∈ c, b < 256) →
    blockBytesBE (packWords c) = c := by
  induction c using packWords.induct with
  | case1 => intro _ _; rfl
  | case2 b0 => intro h _; simp at h
  | case3 b0 b1 => intro h _; simp at h
  | case4 b0 b1 b2 => intro h _; simp at h
  | case5 b0 b1 b2 b3 tail ih =>
    intro h hb
    simp only [packWords, blockBytesBE, List.map_cons, List.flatten_cons]
    rw [wordBytesBE_word4 b0 b1 b2 b3 (hb b0 (by simp)) (hb b1 (by simp)) (hb b2 (by simp))
      (hb b3 (by simp))]
    have := ih (by simp at h; omega) (fun b hbm => hb b (by simp [hbm]))
    simp only [blockBytesBE] at this
    rw [this]
    rfl

theorem parse_blocks_aux (n : Nat) : ∀ bytes : List Nat, bytes.length = 64 * n →
    (∀ b ∈ bytes, b < 256) →
    (fillFrom 0 (List.replicate 16 0) (packWords bytes)).length = n
    ∧ (∀ blk ∈ fillFrom 0 (List.replicate 16 0) (packWords bytes), blk.length = 16)
    ∧ ((fillFrom 0 (List.replicate 16 0) (packWords bytes)).map blockBytesBE).flatten
        = bytes := by
  induction n with
  | zero =>
    intro bytes hlen hb
    have hnil : bytes = [] := List.eq_nil_of_length_eq_zero (by omega)
    subst hnil
    simp [packWords, fillFrom]
  | succ n ih =>
    intro bytes hlen hb
    have hsplit : bytes = bytes.take 64 ++ bytes.drop 64 := (List.take_append_drop 64 bytes).symm
    have hctake : (bytes.take 64).length = 64 := by simp [List.length_take]; omega
    have hdlen : (bytes.drop 64).length = 64 * n := by simp [List.length_drop]; omega
    rw [hsplit]
    rw [packWords_append (bytes.take 64) (bytes.drop 64) (by rw [hctake])]
    have hpw : (packWords (bytes.take 64)).length = 16 := by rw [packWords_length, hctake]
    rw [fillFrom_append (packWords (bytes.take 64)) (packWords (bytes.drop 64)) 0
      (List.replicate 16 0) (by omega) (by simp [hpw]) (by simp)
      (fun j _ => getD_replicate_zero 16 j)]
    simp only [List.take_zero, List.nil_append]
    obtain ⟨ih1, ih2, ih3⟩ := ih (bytes.drop 64) hdlen (fun b hbm => hb b (List.drop_subset _ _ hbm))
    refine ⟨?_, ?_, ?_⟩
    · rw [List.length_cons, ih1]
    · intro blk hblk
      rcases List.mem_cons.mp hblk with h | h
      · rw [h]; exact hpw
      · exact ih2 blk h
    · simp only [List.map_cons, List.flatten_cons]
      rw [blockBytesBE_packWords (bytes.take 64) (by rw [hctake])
        (fun b hbm => hb b (List.take_subset _ _ hbm)), ih3]

/-- C6: on a byte sequence whose length is a multiple of 64,
`into_512bit_blocks` returns exactly `length / 64` blocks of 16 words each,
and re-serializing each block's words as big-endian bytes and concatenating
reproduces the input exactly. -/
theorem parse_blocks_roundtrip (bytes : List Nat) (hb : ∀ b ∈ bytes, b < 256)
    (hlen : bytes.length % 64 = 0) :
    (SHA256.into_512bit_blocks bytes).length = bytes.length / 64
    ∧ (∀ blk ∈ SHA256.into_512bit_blocks bytes, blk.length = 16)
    ∧ ((SHA256.into_512bit_blocks bytes).map blockBytesBE).flatten = bytes := by
  rw [into_charact]
  obtain ⟨h1, h2, h3⟩ := parse_blocks_aux (bytes.length / 64) bytes (by omega) hb
  exact ⟨by rw [h1], h2, h3⟩

/-- Witness for C6 at a concrete 64-byte input. -/
theorem parse_blocks_roundtrip_witness :
    (∀ b ∈ List.replicate 64 (7 : Nat), b < 256)
    ∧ (List.replicate 64 (7 : Nat)).length % 64 = 0
    ∧ ((SHA256.into_512bit_blocks (List.replicate 64 7)).length
          = (List.replicate 64 (7 : Nat)).length / 64
        ∧ (∀ blk ∈ SHA256.into_512bit_blocks (List.replicate 64 7), blk.length = 16)
        ∧ ((SHA256.into_512bit_blocks (List.replicate 64 7)).map blockBytesBE).flatten
            = List.replicate 64 7) :=
  ⟨by decide, by decide,
   parse_blocks_roundtrip (List.replicate 64 7) (by decide) (by decide)⟩
